import Mathlib

/-!
Verification of the availability / booking core of `bot.py` (stylist booking
assistant).  The embedding works at minute granularity: an instant is the
(integer) number of minutes since midnight of day 0 of the business timezone;
day `d`'s midnight is minute `1440 * d`.  All time arithmetic in the source is
`timedelta` arithmetic on whole minutes (seconds/microseconds are zeroed by the
slot generator before they could matter), so this is faithful for minute-valued
inputs.  `datetime` comparison becomes integer comparison, `dt.date()` becomes
floor division by 1440 (Lean's `Int` `/` is Euclidean division, which is floor
division for a positive divisor), and `dt.minute` becomes `% 1440 % 60`
(equal to `% 60` since instants here are compared only through mod 15).
-/

/-- `WORK_START = "08:00"` from bot.py, as minutes after midnight. -/
def WORK_START_MIN : Int := 480

/-- `WORK_END = "18:00"` from bot.py, as minutes after midnight. -/
def WORK_END_MIN : Int := 1080

/-- `SLOT_STEP_MIN = 15` from bot.py. -/
def SLOT_STEP_MIN : Int := 15

/-- `BUFFER_MIN = 15` from bot.py. -/
def BUFFER_MIN : Int := 15

/-- A busy interval `(start, end)` as produced by `list_busy_intervals`. -/
structure Ivl where
  s : Int
  e : Int
deriving DecidableEq, Repr

/-- Sort key of `result.sort(key=lambda x: x[0])`: compare by interval start. -/
def byStart (a b : Ivl) : Prop := a.s ≤ b.s

instance : DecidableRel byStart := fun a b => Int.decLe a.s b.s

instance : IsTotal Ivl byStart := ⟨fun a b => Int.le_total a.s b.s⟩

instance : IsTrans Ivl byStart := ⟨fun _ _ _ h1 h2 => le_trans h1 h2⟩

/-- The merge loop of `list_busy_intervals` (bot.py lines 286-291), carrying the
current open interval `cur` (the mutable `merged[-1]` of the source): a new
interval whose start is past `cur.e` flushes `cur`, otherwise it extends
`cur`'s end to the max of the two ends. -/
def mergeAux (cur : Ivl) : List Ivl → List Ivl
  | [] => [cur]
  | iv :: rest =>
    if cur.e < iv.s then cur :: mergeAux iv rest
    else mergeAux ⟨cur.s, max cur.e iv.e⟩ rest

/-- Merge pass over an already-sorted list (`merged = []; for s,e in result: ...`). -/
def mergeSorted : List Ivl → List Ivl
  | [] => []
  | iv :: rest => mergeAux iv rest

/-- `result.sort(key=...)` followed by the merge loop: the interval-algebra
`merge` operation of bot.py lines 284-292.  Python `list.sort` is a stable sort
by start; `List.insertionSort` with `byStart` is the same stable sort. -/
def mergeIntervals (l : List Ivl) : List Ivl :=
  mergeSorted (List.insertionSort byStart l)

/-- A raw calendar event as answered by the oracle for one day
(`start`/`stop` instants in business-timezone minutes, plus the
`status == "cancelled"` flag checked by the source). -/
structure CalEvent where
  start : Int
  stop : Int
  cancelled : Bool
deriving DecidableEq, Repr

/-- The external Google-Calendar oracle plus its failure modes:
`configured = false` models `get_calendar_service()` returning `None`
(no `GOOGLE_CALENDAR_ID` / key file); `listFails = true` models the
`events().list` call raising (the `except` branch returns `[]`);
`insertOk = false` models `events().insert` raising;
`eventsOn d` is the oracle's (day-scoped) answer for day `d`;
`newEventId`/`newEventLink` are the id and htmlLink of a created event. -/
structure Oracle where
  configured : Bool
  eventsOn : Int → List CalEvent
  listFails : Bool
  insertOk : Bool
  newEventId : String
  newEventLink : String

/-- Minute instant of clock-time `clock` on day `d` (`_dt_on`). -/
def dayMin (d clock : Int) : Int := 1440 * d + clock

/-- `list_busy_intervals(date_obj)` (bot.py lines 257-295): no service or a
failing list call yields `[]` (fail open); otherwise each non-cancelled event
is padded by `BUFFER_MIN` on both sides and the result is sorted and merged. -/
def list_busy_intervals (o : Oracle) (d : Int) : List Ivl :=
  if o.configured = false then []
  else if o.listFails = true then []
  else
    mergeIntervals
      (((o.eventsOn d).filter (fun ev => !ev.cancelled)).map
        (fun ev => ⟨ev.start - BUFFER_MIN, ev.stop + BUFFER_MIN⟩))

/-- The free-sub-interval loop of `compute_free_slots_for_date`
(bot.py lines 375-386): walk the busy list with a cursor starting at the
working-window start, skipping busy intervals wholly outside the window,
emitting `[cursor, min(bs, day_end)]` whenever a busy interval starts past the
cursor, and breaking once the cursor reaches `day_end`; a final trailing free
interval is appended when the cursor stops short of `day_end`. -/
def freeIvls (dS dE : Int) : List Ivl → Int → List Ivl
  | [], cursor => if cursor < dE then [⟨cursor, dE⟩] else []
  | b :: rest, cursor =>
    if b.e ≤ dS ∨ b.s ≥ dE then freeIvls dS dE rest cursor
    else
      let emitted : List Ivl := if b.s > cursor then [⟨cursor, min b.s dE⟩] else []
      let cursor2 := max cursor b.e
      if cursor2 ≥ dE then emitted else emitted ++ freeIvls dS dE rest cursor2

/-- The candidate `while cur <= fe` loop of `compute_free_slots_for_date`
(bot.py lines 397-405): a candidate is kept when it is strictly in the future
and either fits (`cur + need <= fe` while `cur < fe`) or sits exactly at the
end of a free interval whose clock time is `WORK_END`.  The extra `Nat`
argument is loop fuel (strictly more than the number of iterations, which the
caller supplies), making the recursion structural. -/
def slotGo (need now fe : Int) : Int → Nat → List Int
  | _, 0 => []
  | cur, n + 1 =>
    if cur ≤ fe then
      (if now < cur then
        (if cur < fe then (if cur + need ≤ fe then [cur] else [])
         else (if fe % 1440 = WORK_END_MIN then [cur] else []))
       else []) ++ slotGo need now fe (cur + SLOT_STEP_MIN) n
    else []

/-- Rounding of the first candidate of a free interval up to the next step
boundary (bot.py lines 393-396): `minutes_mod = cur.minute % SLOT_STEP_MIN`,
add `SLOT_STEP_MIN - minutes_mod` when nonzero.  `cur.minute` is
`cur % 60` at minute granularity (instants are nonnegative here). -/
def roundUpStart (s : Int) : Int :=
  if s % 60 % SLOT_STEP_MIN ≠ 0 then s + (SLOT_STEP_MIN - s % 60 % SLOT_STEP_MIN) else s

/-- Candidate generation for one free interval `iv` (the body of
`for (fs, fe) in free`), with sufficient fuel for the whole `while` loop. -/
def slotLoop (need now : Int) (iv : Ivl) : List Int :=
  slotGo need now iv.e (roundUpStart iv.s) ((iv.e - roundUpStart iv.s).toNat + 1)

/-- Adjacent-duplicate removal; composed with a (≤)-sort below this is
Python's `sorted({s for s in slots})`. -/
def dedupAdj : List Int → List Int
  | [] => []
  | [x] => [x]
  | x :: y :: rest => if x = y then dedupAdj (y :: rest) else x :: dedupAdj (y :: rest)

/-- `sorted({s for s in slots})`: the ascending list of the distinct slots. -/
def sortedUnique (l : List Int) : List Int :=
  dedupAdj (List.insertionSort (fun a b : Int => a ≤ b) l)

/-- `compute_free_slots_for_date(date_obj, needed_minutes)` (bot.py lines
362-406) for day `d`, with the ambient `datetime.now()` passed as `now` and
the calendar oracle passed as `o`.  `day_start` is `WORK_START` plus
`BUFFER_MIN`; `day_end` is `WORK_END` (start at closing time allowed). -/
def compute_free_slots_for_date (o : Oracle) (now d needed : Int) : List Int :=
  let day_start := dayMin d WORK_START_MIN + BUFFER_MIN
  let day_end := dayMin d WORK_END_MIN
  if day_end ≤ day_start then []
  else
    let busy := list_busy_intervals o d
    let free := freeIvls day_start day_end busy day_start
    sortedUnique (free.flatMap (fun iv => slotLoop needed now iv))

/-- The collision test of `create_event_on_calendar`
(`if not (end_dt <= bs or start_dt >= be)`). -/
def overlapsB (startT endT : Int) (iv : Ivl) : Bool :=
  !(decide (endT ≤ iv.s) || decide (startT ≥ iv.e))

/-- Outcome of `create_event_on_calendar`: the `{"conflict": True, "events":
[...]}` dict, the `{"eventId", "htmlLink"(, "overlapped")}` dict (the
`overlapped` key modelled as a `Bool`, absent = `false`), or Python `None`
(service missing or insert raised — the Unavailable outcome). -/
inductive CreateResult where
  | conflict (events : List Ivl)
  | created (eventId htmlLink : String) (overlapped : Bool)
  | unavailable
deriving DecidableEq, Repr

/-- `create_event_on_calendar(booking)` (bot.py lines 298-360) for a draft
whose start instant is `startT` and whose service duration is `durT` minutes
(the source derives `durT` from the draft's service via the static catalog).
The second component records whether the oracle's `events().insert` call was
reached (i.e. whether any external mutation was attempted). -/
def create_event_on_calendar (o : Oracle) (startT durT : Int) (allow_overlap : Bool) :
    CreateResult × Bool :=
  if o.configured = false then (CreateResult.unavailable, false)
  else
    let endT := startT + durT
    let busy := list_busy_intervals o (startT / 1440)
    if allow_overlap = false then
      match busy.find? (overlapsB startT endT) with
      | some iv => (CreateResult.conflict [iv], false)
      | none =>
        if o.insertOk then (CreateResult.created o.newEventId o.newEventLink false, true)
        else (CreateResult.unavailable, true)
    else
      let overlapped := busy.any (overlapsB startT endT)
      if o.insertOk then (CreateResult.created o.newEventId o.newEventLink overlapped, true)
      else (CreateResult.unavailable, true)

/-- Observable effects of the tail of `book_confirm` (bot.py lines 1070-1124)
as a function of the `create_event_on_calendar` result: whether the dialogue
went back to time selection, whether the bookings CSV row and the Google-Sheet
row were appended, the calendar fields stored with them, whether the
degraded-sync note was shown, and whether the manual-overlap warning fired. -/
structure ConfirmOutcome where
  backToTimeSelect : Bool
  csvAppended : Bool
  sheetAppended : Bool
  eventIdField : String
  htmlLinkField : String
  degradedNote : Bool
  overlapWarning : Bool
deriving DecidableEq, Repr

/-- The branch on `created` in `book_confirm`: a conflict result re-prompts for
a time and persists nothing; a created result persists with the returned
calendar fields; `None` (oracle unreachable) still persists, with empty
calendar fields and the degraded-sync note. -/
def book_confirm_after (created : CreateResult) : ConfirmOutcome :=
  match created with
  | CreateResult.conflict _ => ⟨true, false, false, "", "", false, false⟩
  | CreateResult.created eid link ov => ⟨false, true, true, eid, link, false, ov⟩
  | CreateResult.unavailable => ⟨false, true, true, "", "", true, false⟩

/-- The day-search loop of `nearest_free_days_keyboard` (bot.py lines 949-958):
`while found < 7 and d <= anchor + 30: d += 1; ...`.  The `Nat` budget encodes
the `d <= anchor + 30` bound exactly: at the k-th test `d = anchor + k` and
`budget = 31 - k`, so `d ≤ anchor + 30` iff `budget > 0`. -/
def nfdGo (o : Oracle) (now minutes : Int) : Int → Nat → Nat → List Int
  | _, _, 0 => []
  | d, found, budget + 1 =>
    if found < 7 then
      (if compute_free_slots_for_date o now (d + 1) minutes = [] then
        nfdGo o now minutes (d + 1) found budget
       else (d + 1) :: nfdGo o now minutes (d + 1) (found + 1) budget)
    else []

/-- `nearest_free_days_keyboard(anchor_date, service_minutes)` (bot.py lines
947-962), abstracted to the list of day numbers offered on the keyboard. -/
def nearest_free_days_keyboard (o : Oracle) (now anchor minutes : Int) : List Int :=
  nfdGo o now minutes anchor 0 31

/-- The set of instants covered by a list of (closed) busy intervals. -/
def covers (l : List Ivl) (x : Int) : Prop := ∃ iv ∈ l, iv.s ≤ x ∧ x ≤ iv.e

/-- Oracle unreachability at submission time: the calendar service is not
configured (no handle exists), or both remote calls fail — listing raises
(treated as an empty busy set) and insertion raises. -/
def oracle_unreachable (o : Oracle) : Prop :=
  o.configured = false ∨ (o.listFails = true ∧ o.insertOk = false)

/-- Test oracle: one event 10:00-11:00 on every day. -/
def oC1 : Oracle := ⟨true, fun _ => [⟨600, 660, false⟩], false, true, "e1", "l1"⟩

/-- Test oracle: one event 10:00-11:00 on every day. -/
def oC3 : Oracle := ⟨true, fun _ => [⟨600, 660, false⟩], false, true, "e3", "l3"⟩

/-- Test oracle: one event 10:00-11:00 on every day. -/
def oC4 : Oracle := ⟨true, fun _ => [⟨600, 660, false⟩], false, true, "e4", "l4"⟩

/-- Test oracle: configured but both remote calls fail. -/
def oC5 : Oracle := ⟨true, fun _ => [], true, false, "e5", "l5"⟩

/-- Test oracle: one event 18:30-19:00 (after closing) on every day. -/
def oC6 : Oracle := ⟨true, fun _ => [⟨1110, 1140, false⟩], false, true, "e6", "l6"⟩

/-- Test oracle: one event 10:00-11:00 on every day. -/
def oC6w : Oracle := ⟨true, fun _ => [⟨600, 660, false⟩], false, true, "e6w", "l6w"⟩

/-- Test oracle: no events at all. -/
def oC7 : Oracle := ⟨true, fun _ => [], false, true, "e7", "l7"⟩

/-- Test oracle: every day fully busy except day 31, which is free. -/
def oC9 : Oracle :=
  ⟨true, fun d => if d = 31 then [] else [⟨1440 * d, 1440 * d + 1200, false⟩], false, true,
    "e9", "l9"⟩

/-- Test oracle: a conflicting event exists but the listing call fails. -/
def oC10 : Oracle := ⟨true, fun _ => [⟨600, 660, false⟩], true, true, "eA", "lA"⟩

/-- Separation relation of a properly merged list: the earlier interval ends
strictly before the later one starts (non-overlapping and non-adjacent). -/
def gapped (a b : Ivl) : Prop := a.e < b.s

lemma mergeAux_head (l : List Ivl) :
    ∀ cur : Ivl, ∃ e2 t, mergeAux cur l = ⟨cur.s, e2⟩ :: t ∧ cur.e ≤ e2 := by
  induction l with
  | nil => exact fun cur => ⟨cur.e, [], rfl, le_refl _⟩
  | cons iv rest ih =>
    intro cur
    by_cases h : cur.e < iv.s
    · exact ⟨cur.e, mergeAux iv rest, by simp [mergeAux, h], le_refl _⟩
    · obtain ⟨e2, t, heq, hle⟩ := ih ⟨cur.s, max cur.e iv.e⟩
      exact ⟨e2, t, by simp [mergeAux, h, heq], le_trans (le_max_left _ _) hle⟩

lemma mergeAux_starts (l : List Ivl) :
    ∀ cur, ∀ y ∈ mergeAux cur l, ∃ z ∈ cur :: l, y.s = z.s := by
  induction l with
  | nil =>
    intro cur y hy
    simp [mergeAux] at hy
    exact ⟨cur, by simp, by rw [hy]⟩
  | cons iv rest ih =>
    intro cur y hy
    by_cases h : cur.e < iv.s
    · simp only [mergeAux, if_pos h, List.mem_cons] at hy
      rcases hy with heq | hy
      · exact ⟨cur, by simp, by rw [heq]⟩
      · obtain ⟨z, hz, hs⟩ := ih iv y hy
        exact ⟨z, List.mem_cons_of_mem _ hz, hs⟩
    · simp only [mergeAux, if_neg h] at hy
      obtain ⟨z, hz, hs⟩ := ih ⟨cur.s, max cur.e iv.e⟩ y hy
      rcases List.mem_cons.1 hz with heq | hz
      · exact ⟨cur, by simp, by rw [hs, heq]⟩
      · exact ⟨z, List.mem_cons_of_mem _ (List.mem_cons_of_mem _ hz), hs⟩

lemma mergeAux_chain (l : List Ivl) :
    ∀ cur, List.Sorted byStart (cur :: l) →
      List.Chain' gapped (mergeAux cur l) := by
  induction l with
  | nil => intro cur _; simp [mergeAux]
  | cons iv rest ih =>
    intro cur hs
    rw [List.sorted_cons] at hs
    obtain ⟨hcur, hrest⟩ := hs
    by_cases h : cur.e < iv.s
    · simp only [mergeAux, if_pos h]
      obtain ⟨e2, t, heq, -⟩ := mergeAux_head rest iv
      have hch := ih iv hrest
      rw [heq] at hch ⊢
      exact List.Chain'.cons (show gapped cur ⟨iv.s, e2⟩ from h) hch
    · simp only [mergeAux, if_neg h]
      apply ih ⟨cur.s, max cur.e iv.e⟩
      rw [List.sorted_cons] at hrest ⊢
      exact ⟨fun b hb => le_trans (hcur iv (by simp)) (hrest.1 b hb), hrest.2⟩

lemma mergeAux_sorted (l : List Ivl) :
    ∀ cur, List.Sorted byStart (cur :: l) →
      List.Sorted byStart (mergeAux cur l) := by
  induction l with
  | nil => intro cur _; simp [mergeAux]
  | cons iv rest ih =>
    intro cur hs
    rw [List.sorted_cons] at hs
    obtain ⟨hcur, hrest⟩ := hs
    by_cases h : cur.e < iv.s
    · simp only [mergeAux, if_pos h]
      rw [List.sorted_cons]
      refine ⟨fun b hb => ?_, ih iv hrest⟩
      obtain ⟨z, hz, hsz⟩ := mergeAux_starts rest iv b hb
      rcases List.mem_cons.1 hz with heq | hz
      · show cur.s ≤ b.s
        rw [hsz, heq]; exact hcur iv (by simp)
      · show cur.s ≤ b.s
        rw [hsz]; exact hcur z (List.mem_cons_of_mem _ hz)
    · simp only [mergeAux, if_neg h]
      apply ih ⟨cur.s, max cur.e iv.e⟩
      rw [List.sorted_cons] at hrest ⊢
      exact ⟨fun b hb => le_trans (hcur iv (by simp)) (hrest.1 b hb), hrest.2⟩

lemma mergeAux_lt (l : List Ivl) :
    ∀ cur, (∀ x ∈ cur :: l, x.s < x.e) → ∀ y ∈ mergeAux cur l, y.s < y.e := by
  induction l with
  | nil =>
    intro cur hx y hy
    simp [mergeAux] at hy
    rw [hy]; exact hx cur (by simp)
  | cons iv rest ih =>
    intro cur hx y hy
    by_cases h : cur.e < iv.s
    · simp only [mergeAux, if_pos h, List.mem_cons] at hy
      rcases hy with rfl | hy
      · exact hx y (by simp)
      · exact ih iv (fun x hxm => hx x (List.mem_cons_of_mem _ hxm)) y hy
    · simp only [mergeAux, if_neg h] at hy
      refine ih ⟨cur.s, max cur.e iv.e⟩ ?_ y hy
      intro x hxm
      rcases List.mem_cons.1 hxm with rfl | hxm
      · exact lt_of_lt_of_le (hx cur (by simp)) (le_max_left _ _)
      · exact hx x (List.mem_cons_of_mem _ (List.mem_cons_of_mem _ hxm))

lemma mergeAux_covers (l : List Ivl) :
    ∀ cur, List.Sorted byStart (cur :: l) →
      ∀ x, covers (mergeAux cur l) x ↔ covers (cur :: l) x := by
  induction l with
  | nil => intro cur _ x; simp [mergeAux]
  | cons iv rest ih =>
    intro cur hs x
    rw [List.sorted_cons] at hs
    obtain ⟨hcur, hrest⟩ := hs
    by_cases h : cur.e < iv.s
    · simp only [mergeAux, if_pos h]
      rw [covers, covers]
      simp only [List.mem_cons, exists_eq_or_imp]
      constructor
      · rintro (hc | ⟨z, hz, hzc⟩)
        · exact Or.inl hc
        · have := (ih iv hrest x).1 ⟨z, hz, hzc⟩
          rw [covers] at this
          simp only [List.mem_cons, exists_eq_or_imp] at this
          exact Or.inr this
      · rintro (hc | hc)
        · exact Or.inl hc
        · refine Or.inr ?_
          have : covers (iv :: rest) x := by
            rw [covers]; simp only [List.mem_cons, exists_eq_or_imp]; exact hc
          have := (ih iv hrest x).2 this
          rw [covers] at this
          exact this
    · simp only [mergeAux, if_neg h]
      have hsort2 : List.Sorted byStart (⟨cur.s, max cur.e iv.e⟩ :: rest) := by
        rw [List.sorted_cons] at hrest ⊢
        exact ⟨fun b hb => le_trans (hcur iv (by simp)) (hrest.1 b hb), hrest.2⟩
      rw [ih ⟨cur.s, max cur.e iv.e⟩ hsort2 x]
      rw [covers, covers]
      simp only [List.mem_cons, exists_eq_or_imp]
      constructor
      · rintro (⟨h1, h2⟩ | hc)
        · rcases le_or_lt x cur.e with hle | hlt
          · exact Or.inl ⟨h1, hle⟩
          · refine Or.inr (Or.inl ⟨?_, ?_⟩)
            · exact le_trans (not_lt.1 h) (le_of_lt hlt)
            · rcases max_cases cur.e iv.e with ⟨hm, -⟩ | ⟨hm, -⟩
              · omega
              · omega
        · exact Or.inr (Or.inr hc)
      · rintro (⟨h1, h2⟩ | ⟨h1, h2⟩ | hc)
        · exact Or.inl ⟨h1, le_trans h2 (le_max_left _ _)⟩
        · exact Or.inl ⟨le_trans (hcur iv (by simp)) h1, le_trans h2 (le_max_right _ _)⟩
        · exact Or.inr hc

lemma mergeAux_eq_of_chain (l : List Ivl) :
    ∀ cur, List.Chain' gapped (cur :: l) → mergeAux cur l = cur :: l := by
  induction l with
  | nil => intro cur _; rfl
  | cons iv rest ih =>
    intro cur hch
    rw [List.chain'_cons] at hch
    obtain ⟨hg, hch⟩ := hch
    simp only [mergeAux, if_pos (show cur.e < iv.s from hg)]
    rw [ih iv hch]

lemma mergeSorted_sorted {l : List Ivl} (h : List.Sorted byStart l) :
    List.Sorted byStart (mergeSorted l) := by
  cases l with
  | nil => simp [mergeSorted]
  | cons iv rest => exact mergeAux_sorted rest iv h

lemma mergeSorted_chain {l : List Ivl} (h : List.Sorted byStart l) :
    List.Chain' gapped (mergeSorted l) := by
  cases l with
  | nil => simp [mergeSorted]
  | cons iv rest => exact mergeAux_chain rest iv h

lemma mergeSorted_covers {l : List Ivl} (h : List.Sorted byStart l) (x : Int) :
    covers (mergeSorted l) x ↔ covers l x := by
  cases l with
  | nil => simp [mergeSorted]
  | cons iv rest => exact mergeAux_covers rest iv h x

lemma mergeSorted_lt {l : List Ivl} (h : ∀ x ∈ l, x.s < x.e) :
    ∀ y ∈ mergeSorted l, y.s < y.e := by
  cases l with
  | nil => simp [mergeSorted]
  | cons iv rest => exact mergeAux_lt rest iv h

lemma mergeSorted_eq_self {l : List Ivl} (h : List.Chain' gapped l) :
    mergeSorted l = l := by
  cases l with
  | nil => rfl
  | cons iv rest => exact mergeAux_eq_of_chain rest iv h

lemma chain_gapped_head : ∀ {a : Ivl} {l : List Ivl}, List.Chain' gapped (a :: l) →
    (∀ x ∈ l, x.s < x.e) → ∀ b ∈ l, gapped a b := by
  intro a l
  induction l generalizing a with
  | nil => simp
  | cons c rest ih =>
    intro hch hlt b hb
    rw [List.chain'_cons] at hch
    rcases List.mem_cons.1 hb with heq | hb
    · rw [heq]; exact hch.1
    · have hcb : gapped c b :=
        ih hch.2 (fun x hx => hlt x (List.mem_cons_of_mem _ hx)) b hb
      have hc : c.s < c.e := hlt c (by simp)
      exact lt_trans (lt_trans hch.1 hc) hcb

lemma chain_gapped_pairwise : ∀ {l : List Ivl}, List.Chain' gapped l →
    (∀ x ∈ l, x.s < x.e) → List.Pairwise gapped l := by
  intro l
  induction l with
  | nil => intro _ _; exact List.Pairwise.nil
  | cons a rest ih =>
    intro hch hlt
    refine List.Pairwise.cons ?_ (ih hch.tail (fun x hx => hlt x (List.mem_cons_of_mem _ hx)))
    exact chain_gapped_head hch (fun x hx => hlt x (List.mem_cons_of_mem _ hx))

lemma mergeIntervals_sorted (l : List Ivl) : List.Sorted byStart (mergeIntervals l) :=
  mergeSorted_sorted (List.sorted_insertionSort byStart l)

lemma mergeIntervals_chain (l : List Ivl) : List.Chain' gapped (mergeIntervals l) :=
  mergeSorted_chain (List.sorted_insertionSort byStart l)

lemma mergeIntervals_covers (l : List Ivl) (x : Int) :
    covers (mergeIntervals l) x ↔ covers l x := by
  rw [mergeIntervals, mergeSorted_covers (List.sorted_insertionSort byStart l) x]
  constructor
  · rintro ⟨iv, hiv, hc⟩
    exact ⟨iv, (List.perm_insertionSort byStart l).mem_iff.1 hiv, hc⟩
  · rintro ⟨iv, hiv, hc⟩
    exact ⟨iv, (List.perm_insertionSort byStart l).mem_iff.2 hiv, hc⟩

lemma mergeIntervals_lt (l : List Ivl) (h : ∀ x ∈ l, x.s < x.e) :
    ∀ y ∈ mergeIntervals l, y.s < y.e :=
  mergeSorted_lt (fun x hx => h x ((List.perm_insertionSort byStart l).mem_iff.1 hx))

lemma mergeIntervals_pairwise (l : List Ivl) (h : ∀ x ∈ l, x.s < x.e) :
    List.Pairwise gapped (mergeIntervals l) :=
  chain_gapped_pairwise (mergeIntervals_chain l) (mergeIntervals_lt l h)

lemma mergeIntervals_idem (l : List Ivl) :
    mergeIntervals (mergeIntervals l) = mergeIntervals l := by
  conv_lhs => rw [mergeIntervals]
  rw [List.Sorted.insertionSort_eq (mergeIntervals_sorted l)]
  exact mergeSorted_eq_self (mergeIntervals_chain l)

lemma mem_dedupAdj : ∀ (l : List Int) (x : Int), x ∈ dedupAdj l ↔ x ∈ l := by
  intro l
  induction l with
  | nil => intro x; simp [dedupAdj]
  | cons a rest ih =>
    intro x
    cases rest with
    | nil => simp [dedupAdj]
    | cons b rest2 =>
      by_cases h : a = b
      · simp only [dedupAdj, if_pos h]
        rw [ih x]
        simp only [List.mem_cons, h]
        tauto
      · simp only [dedupAdj, if_neg h, List.mem_cons]
        rw [ih x]
        simp [List.mem_cons]

lemma dedupAdj_sorted : ∀ {l : List Int}, List.Pairwise (· ≤ ·) l →
    List.Pairwise (· < ·) (dedupAdj l) := by
  intro l
  induction l with
  | nil => intro _; exact List.Pairwise.nil
  | cons a rest ih =>
    intro hp
    cases rest with
    | nil => simp [dedupAdj]
    | cons b rest2 =>
      rw [List.pairwise_cons] at hp
      obtain ⟨hab, hp2⟩ := hp
      by_cases h : a = b
      · simp only [dedupAdj, if_pos h]
        exact ih hp2
      · simp only [dedupAdj, if_neg h]
        rw [List.pairwise_cons]
        refine ⟨fun y hy => ?_, ih hp2⟩
        rw [mem_dedupAdj] at hy
        rcases List.mem_cons.1 hy with heq | hy2
        · rw [heq]
          exact lt_of_le_of_ne (hab b (by simp)) (by rw [← heq] at h ⊢; exact h)
        · have hby : b ≤ y := (List.pairwise_cons.1 hp2).1 y hy2
          have : a ≤ b := hab b (by simp)
          have hz : a ≠ b := h
          omega

lemma mem_sortedUnique (l : List Int) (x : Int) : x ∈ sortedUnique l ↔ x ∈ l := by
  rw [sortedUnique, mem_dedupAdj]
  exact (List.perm_insertionSort _ l).mem_iff

lemma sortedUnique_sorted (l : List Int) : List.Pairwise (· < ·) (sortedUnique l) :=
  dedupAdj_sorted (List.sorted_insertionSort _ l)

lemma le_roundUpStart (s : Int) : s ≤ roundUpStart s := by
  simp only [roundUpStart, SLOT_STEP_MIN]
  split <;> omega

lemma roundUpStart_lt (s : Int) : roundUpStart s < s + 15 := by
  simp only [roundUpStart, SLOT_STEP_MIN]
  split <;> omega

lemma roundUpStart_emod (s : Int) : roundUpStart s % 15 = 0 := by
  simp only [roundUpStart, SLOT_STEP_MIN]
  split <;> omega

lemma mem_slotGo (need now fe : Int) :
    ∀ (n : Nat) (cur x : Int), fe - cur < 15 * n →
      (x ∈ slotGo need now fe cur n ↔
        cur ≤ x ∧ x ≤ fe ∧ (15 ∣ x - cur) ∧ now < x ∧
          ((x < fe ∧ x + need ≤ fe) ∨ (x = fe ∧ fe % 1440 = WORK_END_MIN))) := by
  intro n
  induction n with
  | zero =>
    intro cur x hfuel
    simp only [slotGo, List.not_mem_nil, false_iff]
    rintro ⟨ha, hb, -⟩
    omega
  | succ n ih =>
    intro cur x hfuel
    by_cases hc : cur ≤ fe
    · simp only [slotGo, if_pos hc, List.mem_append]
      rw [ih (cur + SLOT_STEP_MIN) x (by simp only [SLOT_STEP_MIN]; omega)]
      have hkeep : (x ∈ (if now < cur then
          (if cur < fe then (if cur + need ≤ fe then [cur] else ([] : List Int))
           else (if fe % 1440 = WORK_END_MIN then [cur] else []))
         else [])) ↔
          (x = cur ∧ now < cur ∧
            ((cur < fe ∧ cur + need ≤ fe) ∨ (cur = fe ∧ fe % 1440 = WORK_END_MIN))) := by
        by_cases h1 : now < cur
        · rw [if_pos h1]
          by_cases h2 : cur < fe
          · rw [if_pos h2]
            by_cases h3 : cur + need ≤ fe
            · rw [if_pos h3]
              simp only [List.mem_singleton]
              constructor
              · intro he; exact ⟨he, h1, Or.inl ⟨h2, h3⟩⟩
              · rintro ⟨he, -, -⟩; exact he
            · rw [if_neg h3]
              simp only [List.not_mem_nil, false_iff]
              rintro ⟨he, -, (⟨-, hx⟩ | ⟨he2, -⟩)⟩
              · exact h3 hx
              · omega
          · rw [if_neg h2]
            by_cases h4 : fe % 1440 = WORK_END_MIN
            · rw [if_pos h4]
              simp only [List.mem_singleton]
              constructor
              · intro he; exact ⟨he, h1, Or.inr ⟨by omega, h4⟩⟩
              · rintro ⟨he, -, -⟩; exact he
            · rw [if_neg h4]
              simp only [List.not_mem_nil, false_iff]
              rintro ⟨he, -, (⟨hx, -⟩ | ⟨-, hx⟩)⟩
              · exact h2 hx
              · exact h4 hx
        · rw [if_neg h1]
          simp only [List.not_mem_nil, false_iff]
          rintro ⟨he, hn, -⟩
          exact h1 hn
      rw [hkeep]
      simp only [SLOT_STEP_MIN]
      constructor
      · rintro (⟨he, hn, hC⟩ | ⟨ha, hb, hd, he2, hC⟩)
        · subst he
          refine ⟨le_refl _, ?_, ⟨0, by ring⟩, hn, hC⟩
          rcases hC with ⟨h2, -⟩ | ⟨h2, -⟩
          · exact le_of_lt h2
          · exact le_of_eq h2
        · exact ⟨by omega, hb, by omega, he2, hC⟩
      · rintro ⟨ha, hb, hd, hn, hC⟩
        by_cases hx : x = cur
        · left
          subst hx
          exact ⟨rfl, hn, hC⟩
        · right
          exact ⟨by omega, hb, by omega, hn, hC⟩
    · simp only [slotGo, if_neg hc, List.not_mem_nil, false_iff]
      rintro ⟨ha, hb, -⟩
      exact hc (le_trans ha hb)

lemma mem_slotLoop (need now : Int) (iv : Ivl) (x : Int) :
    x ∈ slotLoop need now iv ↔
      iv.s ≤ x ∧ x ≤ iv.e ∧ x % 15 = 0 ∧ now < x ∧
        ((x < iv.e ∧ x + need ≤ iv.e) ∨ (x = iv.e ∧ iv.e % 1440 = WORK_END_MIN)) := by
  rw [slotLoop,
    mem_slotGo need now iv.e ((iv.e - roundUpStart iv.s).toNat + 1) (roundUpStart iv.s) x
      (by omega)]
  have h1 := roundUpStart_emod iv.s
  have h2 := le_roundUpStart iv.s
  have h3 := roundUpStart_lt iv.s
  constructor
  · rintro ⟨ha, hb, hd, he, hf⟩
    exact ⟨le_trans h2 ha, hb, by omega, he, hf⟩
  · rintro ⟨ha, hb, hd, he, hf⟩
    exact ⟨by omega, hb, by omega, he, hf⟩

lemma freeIvls_bounds (dS dE : Int) :
    ∀ (busy : List Ivl) (cursor : Int), dS ≤ cursor → cursor < dE →
      ∀ iv ∈ freeIvls dS dE busy cursor, cursor ≤ iv.s ∧ iv.s < iv.e ∧ iv.e ≤ dE := by
  intro busy
  induction busy with
  | nil =>
    intro cursor h1 h2 iv hiv
    simp only [freeIvls, if_pos h2, List.mem_singleton] at hiv
    subst hiv
    exact ⟨le_refl _, h2, le_refl _⟩
  | cons b0 rest ih =>
    intro cursor h1 h2 iv hiv
    simp only [freeIvls] at hiv
    by_cases hskip : b0.e ≤ dS ∨ b0.s ≥ dE
    · rw [if_pos hskip] at hiv
      exact ih cursor h1 h2 iv hiv
    · rw [if_neg hskip] at hiv
      by_cases hbrk : max cursor b0.e ≥ dE
      · rw [if_pos hbrk] at hiv
        by_cases hbs : b0.s > cursor
        · rw [if_pos hbs, List.mem_singleton] at hiv
          subst hiv
          exact ⟨le_refl _, by simp only []; omega, min_le_right _ _⟩
        · rw [if_neg hbs] at hiv
          exact absurd hiv (List.not_mem_nil iv)
      · rw [if_neg hbrk, List.mem_append] at hiv
        rcases hiv with hiv | hiv
        · by_cases hbs : b0.s > cursor
          · rw [if_pos hbs, List.mem_singleton] at hiv
            subst hiv
            exact ⟨le_refl _, by simp only []; omega, min_le_right _ _⟩
          · rw [if_neg hbs] at hiv
            exact absurd hiv (List.not_mem_nil iv)
        · have h1b : dS ≤ max cursor b0.e := le_trans h1 (le_max_left _ _)
          have h2b : max cursor b0.e < dE := by omega
          have hbd := ih (max cursor b0.e) h1b h2b iv hiv
          exact ⟨le_trans (le_max_left _ _) hbd.1, hbd.2.1, hbd.2.2⟩

lemma freeIvls_disjoint (dS dE : Int) :
    ∀ (busy : List Ivl) (cursor : Int),
      List.Pairwise gapped busy → (∀ b ∈ busy, b.s ≤ b.e) →
      dS ≤ cursor → cursor < dE →
      ∀ iv ∈ freeIvls dS dE busy cursor, ∀ b ∈ busy, b.e ≤ iv.s ∨ iv.e ≤ b.s := by
  intro busy
  induction busy with
  | nil =>
    intro cursor _ _ _ _ iv _ b hb
    exact absurd hb (List.not_mem_nil b)
  | cons b0 rest ih =>
    intro cursor hpw hse h1 h2 iv hiv b hb
    rw [List.pairwise_cons] at hpw
    obtain ⟨hpw0, hpwr⟩ := hpw
    simp only [freeIvls] at hiv
    by_cases hskip : b0.e ≤ dS ∨ b0.s ≥ dE
    · rw [if_pos hskip] at hiv
      have hbd := freeIvls_bounds dS dE rest cursor h1 h2 iv hiv
      rcases List.mem_cons.1 hb with heq | hbr
      · rcases hskip with hs1 | hs2
        · left; rw [heq]; exact le_trans hs1 (le_trans h1 hbd.1)
        · right; rw [heq]; exact le_trans hbd.2.2 hs2
      · exact ih cursor hpwr (fun z hz => hse z (List.mem_cons_of_mem _ hz)) h1 h2 iv hiv b hbr
    · rw [if_neg hskip] at hiv
      by_cases hbrk : max cursor b0.e ≥ dE
      · rw [if_pos hbrk] at hiv
        by_cases hbs : b0.s > cursor
        · rw [if_pos hbs, List.mem_singleton] at hiv
          subst hiv
          rcases List.mem_cons.1 hb with heq | hbr
          · right; rw [heq]; exact min_le_left _ _
          · right
            have hg2 : b0.e < b.s := hpw0 b hbr
            have hs0 : b0.s ≤ b0.e := hse b0 (by simp)
            show min b0.s dE ≤ b.s
            have := min_le_left b0.s dE
            omega
        · rw [if_neg hbs] at hiv
          exact absurd hiv (List.not_mem_nil iv)
      · rw [if_neg hbrk, List.mem_append] at hiv
        have h2b : max cursor b0.e < dE := by omega
        have h1b : dS ≤ max cursor b0.e := le_trans h1 (le_max_left _ _)
        rcases hiv with hiv | hiv
        · by_cases hbs : b0.s > cursor
          · rw [if_pos hbs, List.mem_singleton] at hiv
            subst hiv
            rcases List.mem_cons.1 hb with heq | hbr
            · right; rw [heq]; exact min_le_left _ _
            · right
              have hg2 : b0.e < b.s := hpw0 b hbr
              have hs0 : b0.s ≤ b0.e := hse b0 (by simp)
              show min b0.s dE ≤ b.s
              have := min_le_left b0.s dE
              omega
          · rw [if_neg hbs] at hiv
            exact absurd hiv (List.not_mem_nil iv)
        · have hbd := freeIvls_bounds dS dE rest (max cursor b0.e) h1b h2b iv hiv
          rcases List.mem_cons.1 hb with heq | hbr
          · left; rw [heq]
            exact le_trans (le_max_right cursor b0.e) hbd.1
          · exact ih (max cursor b0.e) hpwr (fun z hz => hse z (List.mem_cons_of_mem _ hz))
              h1b h2b iv hiv b hbr

lemma window_lt (d : Int) :
    dayMin d WORK_START_MIN + BUFFER_MIN < dayMin d WORK_END_MIN := by
  simp only [dayMin, WORK_START_MIN, WORK_END_MIN, BUFFER_MIN]
  omega

lemma mem_compute_free_slots (o : Oracle) (now d needed x : Int) (hneed : 0 < needed) :
    x ∈ compute_free_slots_for_date o now d needed ↔
      (x % 15 = 0 ∧ now < x ∧
        ∃ iv ∈ freeIvls (dayMin d WORK_START_MIN + BUFFER_MIN) (dayMin d WORK_END_MIN)
            (list_busy_intervals o d) (dayMin d WORK_START_MIN + BUFFER_MIN),
          iv.s ≤ x ∧ x ≤ iv.e ∧ (x + needed ≤ iv.e ∨ x = dayMin d WORK_END_MIN)) := by
  have hwin := window_lt d
  simp only [compute_free_slots_for_date]
  rw [if_neg (by omega)]
  rw [mem_sortedUnique, List.mem_flatMap]
  constructor
  · rintro ⟨iv, hiv, hx⟩
    rw [mem_slotLoop] at hx
    obtain ⟨hs, he, hgrid, hnow, hC⟩ := hx
    have hbd := freeIvls_bounds _ _ (list_busy_intervals o d) _ (le_refl _) hwin iv hiv
    refine ⟨hgrid, hnow, iv, hiv, hs, he, ?_⟩
    rcases hC with ⟨-, hfit⟩ | ⟨hxe, htod⟩
    · exact Or.inl hfit
    · right
      have h1 := hbd.1
      have h2 := hbd.2.1
      have h3 := hbd.2.2
      simp only [dayMin, WORK_START_MIN, WORK_END_MIN, BUFFER_MIN] at h1 h3 htod ⊢
      omega
  · rintro ⟨hgrid, hnow, iv, hiv, hs, he, hcond⟩
    refine ⟨iv, hiv, ?_⟩
    rw [mem_slotLoop]
    have hbd := freeIvls_bounds _ _ (list_busy_intervals o d) _ (le_refl _) hwin iv hiv
    refine ⟨hs, he, hgrid, hnow, ?_⟩
    rcases hcond with hfit | hend
    · by_cases hxe : x < iv.e
      · exact Or.inl ⟨hxe, hfit⟩
      · exact absurd hfit (by omega)
    · right
      have h1 := hbd.1
      have h3 := hbd.2.2
      simp only [dayMin, WORK_START_MIN, WORK_END_MIN, BUFFER_MIN] at h1 h3 hend ⊢
      omega

lemma compute_free_slots_sorted (o : Oracle) (now d needed : Int) :
    List.Pairwise (· < ·) (compute_free_slots_for_date o now d needed) := by
  simp only [compute_free_slots_for_date]
  split
  · exact List.Pairwise.nil
  · exact sortedUnique_sorted _

lemma find_eq_some_split {α : Type} (p : α → Bool) :
    ∀ (l : List α) (a : α), l.find? p = some a →
      ∃ pre post, l = pre ++ a :: post ∧ (∀ z ∈ pre, p z = false) ∧ p a = true := by
  intro l
  induction l with
  | nil => intro a h; exact absurd h (by simp)
  | cons b rest ih =>
    intro a h
    by_cases hb : p b = true
    · rw [List.find?_cons_of_pos _ hb] at h
      refine ⟨[], rest, ?_, by simp, ?_⟩
      · rw [Option.some_inj.1 h]; simp
      · rw [← Option.some_inj.1 h]; exact hb
    · have hbf : p b = false := by
        cases hpb : p b
        · rfl
        · exact absurd hpb hb
      rw [List.find?_cons_of_neg _ (by simp [hbf])] at h
      obtain ⟨pre, post, heq, hpre, hpa⟩ := ih a h
      refine ⟨b :: pre, post, by rw [heq]; rfl, ?_, hpa⟩
      intro z hz
      rcases List.mem_cons.1 hz with heqz | hz2
      · rw [heqz]; exact hbf
      · exact hpre z hz2

lemma list_busy_configured {o : Oracle} {d : Int}
    (h : list_busy_intervals o d ≠ []) : o.configured = true := by
  cases hc : o.configured
  · exact absurd (by simp [list_busy_intervals, hc]) h
  · rfl

lemma list_busy_of_unreachable {o : Oracle} (d : Int)
    (h : o.configured = false ∨ o.listFails = true) : list_busy_intervals o d = [] := by
  rcases h with h | h
  · simp [list_busy_intervals, h]
  · cases hc : o.configured
    · simp [list_busy_intervals, hc]
    · simp [list_busy_intervals, hc, h]

lemma create_event_conflict_eq (o : Oracle) (startT durT : Int) (hconf : o.configured = true)
    (iv : Ivl)
    (hfind : (list_busy_intervals o (startT / 1440)).find? (overlapsB startT (startT + durT))
      = some iv) :
    create_event_on_calendar o startT durT false = (CreateResult.conflict [iv], false) := by
  simp [create_event_on_calendar, hconf, hfind]

lemma create_event_noconflict_eq (o : Oracle) (startT durT : Int) (hconf : o.configured = true)
    (hfind : (list_busy_intervals o (startT / 1440)).find? (overlapsB startT (startT + durT))
      = none) :
    create_event_on_calendar o startT durT false =
      (if o.insertOk then (CreateResult.created o.newEventId o.newEventLink false, true)
       else (CreateResult.unavailable, true)) := by
  simp [create_event_on_calendar, hconf, hfind]

lemma create_event_allow_eq (o : Oracle) (startT durT : Int) (hconf : o.configured = true) :
    create_event_on_calendar o startT durT true =
      (if o.insertOk then
        (CreateResult.created o.newEventId o.newEventLink
          ((list_busy_intervals o (startT / 1440)).any (overlapsB startT (startT + durT))), true)
       else (CreateResult.unavailable, true)) := by
  simp [create_event_on_calendar, hconf]

lemma create_event_unconfigured_eq (o : Oracle) (startT durT : Int) (allow : Bool)
    (hconf : o.configured = false) :
    create_event_on_calendar o startT durT allow = (CreateResult.unavailable, false) := by
  simp [create_event_on_calendar, hconf]

lemma nfdGo_spec (o : Oracle) (now minutes : Int) :
    ∀ (budget : Nat) (d : Int) (found : Nat),
      (nfdGo o now minutes d found budget).length ≤ 7 - found ∧
      ∀ x ∈ nfdGo o now minutes d found budget,
        d < x ∧ x ≤ d + (budget : Int) ∧ compute_free_slots_for_date o now x minutes ≠ [] := by
  intro budget
  induction budget with
  | zero =>
    intro d found
    simp [nfdGo]
  | succ n ih =>
    intro d found
    simp only [nfdGo]
    by_cases h7 : found < 7
    · rw [if_pos h7]
      by_cases hz : compute_free_slots_for_date o now (d + 1) minutes = []
      · rw [if_pos hz]
        obtain ⟨ihl, ihm⟩ := ih (d + 1) found
        refine ⟨ihl, fun x hx => ?_⟩
        obtain ⟨ha, hb, hc⟩ := ihm x hx
        refine ⟨by omega, ?_, hc⟩
        have : ((n + 1 : Nat) : Int) = (n : Int) + 1 := by push_cast; ring
        omega
      · rw [if_neg hz]
        obtain ⟨ihl, ihm⟩ := ih (d + 1) (found + 1)
        constructor
        · simp only [List.length_cons]
          omega
        · intro x hx
          rcases List.mem_cons.1 hx with heq | hx2
          · refine ⟨by omega, by push_cast; omega, by rw [heq]; exact hz⟩
          · obtain ⟨ha, hb, hc⟩ := ihm x hx2
            refine ⟨by omega, ?_, hc⟩
            have : ((n + 1 : Nat) : Int) = (n : Int) + 1 := by push_cast; ring
            omega
    · rw [if_neg h7]
      simp

/-- Claim C1: a timestamp is in the output of `compute_free_slots_for_date` iff
it lies on the 15-minute step grid inside one of the free sub-intervals of the
working window `[workStart+buffer, workEnd]` (the window minus the
buffered-and-merged busy set, as computed by `freeIvls`), is strictly later
than `now`, and either its start plus the required duration fits within that
free sub-interval's end or it equals exactly the configured day-end boundary
`WORK_END`; and the returned sequence is strictly ascending and
duplicate-free.  (`needed > 0`: a required service duration is positive.) -/
theorem C1_free_slots_characterization (o : Oracle) (now d needed : Int) (hneed : 0 < needed) :
    (∀ x : Int, x ∈ compute_free_slots_for_date o now d needed ↔
      (x % SLOT_STEP_MIN = 0 ∧ now < x ∧
        ∃ iv ∈ freeIvls (dayMin d WORK_START_MIN + BUFFER_MIN) (dayMin d WORK_END_MIN)
            (list_busy_intervals o d) (dayMin d WORK_START_MIN + BUFFER_MIN),
          iv.s ≤ x ∧ x ≤ iv.e ∧ (x + needed ≤ iv.e ∨ x = dayMin d WORK_END_MIN))) ∧
    List.Pairwise (· < ·) (compute_free_slots_for_date o now d needed) ∧
    (compute_free_slots_for_date o now d needed).Nodup := by
  refine ⟨fun x => ?_, compute_free_slots_sorted o now d needed,
    List.Pairwise.imp ne_of_lt (compute_free_slots_sorted o now d needed)⟩
  simp only [SLOT_STEP_MIN]
  exact mem_compute_free_slots o now d needed x hneed

/-- Witness for C1 at a concrete oracle: the closing-time slot 18:00 is offered
on a day with a 10:00-11:00 event when `now` is 07:00. -/
theorem C1_free_slots_characterization_witness :
    (1080 : Int) ∈ compute_free_slots_for_date oC1 420 0 60 :=
  ((C1_free_slots_characterization oC1 420 0 60 (by decide)).1 1080).mpr (by decide)

/-- Claim C2: for every input list of intervals with `start < end`, the merge
step produces a list that is sorted by start, pairwise non-overlapping and
non-adjacent (`gapped`: each interval ends strictly before the next starts),
and whose union of covered points equals the union of the input intervals. -/
theorem C2_merge_correct (l : List Ivl) (h : ∀ iv ∈ l, iv.s < iv.e) :
    List.Pairwise byStart (mergeIntervals l) ∧
    List.Pairwise gapped (mergeIntervals l) ∧
    (∀ iv ∈ mergeIntervals l, iv.s < iv.e) ∧
    (∀ x : Int, covers (mergeIntervals l) x ↔ covers l x) :=
  ⟨mergeIntervals_sorted l, mergeIntervals_pairwise l h, mergeIntervals_lt l h,
    fun x => mergeIntervals_covers l x⟩

/-- Witness for C2 on a concrete unsorted overlapping input. -/
theorem C2_merge_correct_witness :
    covers (mergeIntervals [⟨5, 10⟩, ⟨1, 6⟩, ⟨20, 25⟩]) 7 ↔
      covers [⟨5, 10⟩, ⟨1, 6⟩, ⟨20, 25⟩] 7 :=
  (C2_merge_correct [⟨5, 10⟩, ⟨1, 6⟩, ⟨20, 25⟩] (by decide)).2.2.2 7

/-- Claim C3: if a draft with `allow_overlap = false` intersects at least one
busy interval recomputed for the start's day at commit time, then
`create_event_on_calendar` returns the conflict result carrying the first
intersecting busy interval (`pre` holds the earlier, non-intersecting ones),
and the oracle insert call is never reached (second component `false`). -/
theorem C3_conflict_blocks (o : Oracle) (startT durT : Int)
    (hex : ∃ iv ∈ list_busy_intervals o (startT / 1440),
      overlapsB startT (startT + durT) iv = true) :
    ∃ pre iv post,
      list_busy_intervals o (startT / 1440) = pre ++ iv :: post ∧
      (∀ z ∈ pre, overlapsB startT (startT + durT) z = false) ∧
      overlapsB startT (startT + durT) iv = true ∧
      create_event_on_calendar o startT durT false = (CreateResult.conflict [iv], false) := by
  have hconf : o.configured = true := by
    apply list_busy_configured (d := startT / 1440)
    intro hnil
    rw [hnil] at hex
    obtain ⟨iv, hiv, -⟩ := hex
    exact absurd hiv (List.not_mem_nil iv)
  have hsome : ((list_busy_intervals o (startT / 1440)).find?
      (overlapsB startT (startT + durT))).isSome := List.find?_isSome.2 hex
  obtain ⟨iv, hfind⟩ := Option.isSome_iff_exists.1 hsome
  obtain ⟨pre, post, heq, hpre, hp⟩ := find_eq_some_split _ _ _ hfind
  exact ⟨pre, iv, post, heq, hpre, hp, create_event_conflict_eq o startT durT hconf iv hfind⟩

/-- Witness for C3: booking 10:30 for 60 minutes against a 10:00-11:00 event
(buffered busy 09:45-11:15) is rejected as a conflict without insertion. -/
theorem C3_conflict_blocks_witness :
    ∃ pre iv post,
      list_busy_intervals oC3 (630 / 1440) = pre ++ iv :: post ∧
      (∀ z ∈ pre, overlapsB 630 (630 + 60) z = false) ∧
      overlapsB 630 (630 + 60) iv = true ∧
      create_event_on_calendar oC3 630 60 false = (CreateResult.conflict [iv], false) :=
  C3_conflict_blocks oC3 630 60 (by decide)

/-- Claim C4: with `allow_overlap = true` the reservation never returns a
conflict; when the oracle is reachable and the insert succeeds, the created
result's `overlapped` flag is exactly the busy-intersection test (so it is set
iff some busy interval intersects, and not set when none does). -/
theorem C4_allow_overlap_soft (o : Oracle) (startT durT : Int) :
    (∀ evs, (create_event_on_calendar o startT durT true).1 ≠ CreateResult.conflict evs) ∧
    (o.configured = true → o.insertOk = true →
      (create_event_on_calendar o startT durT true).1 =
        CreateResult.created o.newEventId o.newEventLink
          ((list_busy_intervals o (startT / 1440)).any (overlapsB startT (startT + durT)))) ∧
    (((list_busy_intervals o (startT / 1440)).any (overlapsB startT (startT + durT)) = true) ↔
      ∃ iv ∈ list_busy_intervals o (startT / 1440),
        overlapsB startT (startT + durT) iv = true) := by
  refine ⟨?_, ?_, List.any_eq_true⟩
  · intro evs
    cases hc : o.configured
    · rw [create_event_unconfigured_eq o startT durT true hc]
      simp
    · rw [create_event_allow_eq o startT durT hc]
      by_cases hi : o.insertOk
      · rw [if_pos hi]; simp
      · rw [if_neg hi]; simp
  · intro hconf hins
    rw [create_event_allow_eq o startT durT hconf, if_pos hins]

/-- Witness for C4: a manual-time booking over a busy slot is created with
`overlapped = true`, not rejected. -/
theorem C4_allow_overlap_soft_witness :
    (create_event_on_calendar oC4 630 60 true).1 = CreateResult.created "e4" "l4" true := by
  have h := (C4_allow_overlap_soft oC4 630 60).2.1 rfl rfl
  rw [h]
  decide

/-- Claim C5: if the oracle is unreachable at submission time, the reservation
returns the distinct unavailable outcome (never a conflict), and the
confirming dialogue step still persists the booking to the bookings CSV and
the log sink, with empty calendar event fields and the degraded-sync note
shown (and no return to time selection). -/
theorem C5_unavailable_persists (o : Oracle) (startT durT : Int) (allow : Bool)
    (h : oracle_unreachable o) :
    (create_event_on_calendar o startT durT allow).1 = CreateResult.unavailable ∧
    (∀ evs, (create_event_on_calendar o startT durT allow).1 ≠ CreateResult.conflict evs) ∧
    book_confirm_after (create_event_on_calendar o startT durT allow).1 =
      ⟨false, true, true, "", "", true, false⟩ := by
  have hunav : (create_event_on_calendar o startT durT allow).1 = CreateResult.unavailable := by
    cases hc : o.configured
    · rw [create_event_unconfigured_eq o startT durT allow hc]
    · have hli : o.listFails = true ∧ o.insertOk = false := by
        rcases h with h | h
        · rw [hc] at h; exact Bool.noConfusion h
        · exact h
      have hbusy : list_busy_intervals o (startT / 1440) =
          [] := list_busy_of_unreachable _ (Or.inr hli.1)
      cases allow
      · rw [create_event_noconflict_eq o startT durT hc (by rw [hbusy]; rfl)]
        rw [if_neg (by simp [hli.2])]
      · rw [create_event_allow_eq o startT durT hc]
        rw [if_neg (by simp [hli.2])]
  refine ⟨hunav, ?_, ?_⟩
  · intro evs
    rw [hunav]
    simp
  · rw [hunav]
    rfl

/-- Witness for C5 at a concrete unreachable oracle. -/
theorem C5_unavailable_persists_witness :
    (create_event_on_calendar oC5 630 60 false).1 = CreateResult.unavailable ∧
    (∀ evs, (create_event_on_calendar oC5 630 60 false).1 ≠ CreateResult.conflict evs) ∧
    book_confirm_after (create_event_on_calendar oC5 630 60 false).1 =
      ⟨false, true, true, "", "", true, false⟩ :=
  C5_unavailable_persists oC5 630 60 false (Or.inr ⟨rfl, rfl⟩)

/-- Counterexample to Claim C6 as stated: with an event 18:30-19:00 (buffered
busy 18:15-19:15, entirely past closing, so it is skipped by the free-interval
loop), the closing-time slot 18:00 is offered for a 60-minute service, yet
committing exactly that slot with `allow_overlap = false` under the unchanged
busy set returns a conflict. -/
theorem C6_counterexample :
    (1080 : Int) ∈ compute_free_slots_for_date oC6 0 0 60 ∧
    (create_event_on_calendar oC6 1080 60 false).1 = CreateResult.conflict [⟨1095, 1155⟩] := by
  decide

/-- Claim C6 (amended): for every slot returned by the availability
computation whose start plus the required duration does not run past the
`WORK_END` boundary — i.e. every slot except the closing-time-exception slot —
committing it with `allow_overlap = false` under the unchanged busy set never
returns a conflict.  (`hwf`: the oracle's raw events are well-formed,
`start < end`, the BusyInterval invariant of the data model.) -/
theorem C6_slots_reservable (o : Oracle) (now d needed x : Int) (hneed : 0 < needed)
    (hwf : ∀ ev ∈ o.eventsOn d, ev.start < ev.stop)
    (hx : x ∈ compute_free_slots_for_date o now d needed)
    (hfit : x + needed ≤ dayMin d WORK_END_MIN) :
    ∀ evs, (create_event_on_calendar o x needed false).1 ≠ CreateResult.conflict evs := by
  rw [mem_compute_free_slots o now d needed x hneed] at hx
  obtain ⟨hgrid, hnow, iv, hiv, hs, he, hcond⟩ := hx
  have hwin := window_lt d
  have hbd := freeIvls_bounds _ _ (list_busy_intervals o d) _ (le_refl _) hwin iv hiv
  have hday : x / 1440 = d := by
    have h1 := hbd.1
    have h3 := hbd.2.2
    simp only [dayMin, WORK_START_MIN, WORK_END_MIN, BUFFER_MIN] at h1 h3
    omega
  have hfit2 : x + needed ≤ iv.e := by
    rcases hcond with h | h
    · exact h
    · exfalso
      simp only [dayMin, WORK_END_MIN] at h hfit
      omega
  have hpw : List.Pairwise gapped (list_busy_intervals o d) ∧
      ∀ b ∈ list_busy_intervals o d, b.s ≤ b.e := by
    cases hc : o.configured
    · rw [list_busy_of_unreachable _ (Or.inl hc)]
      exact ⟨List.Pairwise.nil, by simp⟩
    · cases hl : o.listFails
      · have hdef : list_busy_intervals o d =
            mergeIntervals
              (((o.eventsOn d).filter (fun ev => !ev.cancelled)).map
                (fun ev => ⟨ev.start - BUFFER_MIN, ev.stop + BUFFER_MIN⟩)) := by
          simp [list_busy_intervals, hc, hl]
        have hlt : ∀ p ∈ ((o.eventsOn d).filter (fun ev => !ev.cancelled)).map
            (fun ev => (⟨ev.start - BUFFER_MIN, ev.stop + BUFFER_MIN⟩ : Ivl)), p.s < p.e := by
          intro p hp
          rw [List.mem_map] at hp
          obtain ⟨ev, hev, hpe⟩ := hp
          have hlt2 : ev.start < ev.stop := hwf ev (List.mem_filter.1 hev).1
          rw [← hpe]
          simp only [BUFFER_MIN]
          omega
        rw [hdef]
        exact ⟨mergeIntervals_pairwise _ hlt,
          fun b hb => le_of_lt (mergeIntervals_lt _ hlt b hb)⟩
      · rw [list_busy_of_unreachable _ (Or.inr hl)]
        exact ⟨List.Pairwise.nil, by simp⟩
  have hnov : ∀ b ∈ list_busy_intervals o d, overlapsB x (x + needed) b = false := by
    intro b hb
    have hdsj := freeIvls_disjoint _ _ (list_busy_intervals o d) _ hpw.1 hpw.2
      (le_refl _) hwin iv hiv b hb
    simp only [overlapsB]
    rcases hdsj with hd1 | hd2
    · have hge : x ≥ b.e := by omega
      simp [hge]
    · have hle : x + needed ≤ b.s := by omega
      simp [hle]
  have hfind : (list_busy_intervals o (x / 1440)).find? (overlapsB x (x + needed)) = none := by
    rw [hday]
    exact List.find?_eq_none.2 (fun b hb => by simp [hnov b hb])
  intro evs
  cases hc : o.configured
  · rw [create_event_unconfigured_eq o x needed false hc]
    simp
  · rw [create_event_noconflict_eq o x needed hc hfind]
    by_cases hi : o.insertOk
    · rw [if_pos hi]; simp
    · rw [if_neg hi]; simp

/-- Witness for the amended C6: the offered 11:15 slot (just after the
buffered 10:00-11:00 event) commits without conflict. -/
theorem C6_slots_reservable_witness :
    (create_event_on_calendar oC6w 675 60 false).1 ≠ CreateResult.conflict [⟨585, 675⟩] :=
  C6_slots_reservable oC6w 420 0 60 675 (by decide) (by decide) (by decide) (by decide)
    [⟨585, 675⟩]

/-- Counterexample to Claim C7 as stated: with an empty busy set, duration 60
and `now` at midnight, the grid point 17:30 (minute 1050) is inside the
working window and in the future, yet it is omitted from the output (it fails
the `cur + need <= fe` duration check and is not the `WORK_END` boundary). -/
theorem C7_counterexample :
    (1050 : Int) % SLOT_STEP_MIN = 0 ∧
    dayMin 0 WORK_START_MIN + BUFFER_MIN ≤ (1050 : Int) ∧
    (1050 : Int) ≤ dayMin 0 WORK_END_MIN ∧
    (0 : Int) < 1050 ∧
    list_busy_intervals oC7 0 = [] ∧
    (1050 : Int) ∉ compute_free_slots_for_date oC7 0 0 60 := by
  decide

/-- Claim C7 (amended): for a day with an empty busy set the output is exactly
the step grid from `workStart+buffer` to `workEnd` inclusive, restricted to
instants strictly in the future that moreover fit the required duration before
`workEnd` or are exactly the `workEnd` closing-time exception. -/
theorem C7_empty_busy_grid (o : Oracle) (now d needed : Int) (hneed : 0 < needed)
    (hempty : list_busy_intervals o d = []) :
    ∀ x : Int, x ∈ compute_free_slots_for_date o now d needed ↔
      (x % SLOT_STEP_MIN = 0 ∧ dayMin d WORK_START_MIN + BUFFER_MIN ≤ x ∧
       x ≤ dayMin d WORK_END_MIN ∧ now < x ∧
       (x + needed ≤ dayMin d WORK_END_MIN ∨ x = dayMin d WORK_END_MIN)) := by
  intro x
  rw [mem_compute_free_slots o now d needed x hneed, hempty]
  have hwin := window_lt d
  simp only [freeIvls, if_pos hwin, List.mem_singleton, SLOT_STEP_MIN]
  constructor
  · rintro ⟨hg, hn, iv, hiv, hs, he, hcond⟩
    subst hiv
    exact ⟨hg, hs, he, hn, hcond⟩
  · rintro ⟨hg, h1, h2, hn, hcond⟩
    exact ⟨hg, hn, ⟨dayMin d WORK_START_MIN + BUFFER_MIN, dayMin d WORK_END_MIN⟩, rfl,
      h1, h2, hcond⟩

/-- Witness for the amended C7: the closing-time slot is offered on an empty
day. -/
theorem C7_empty_busy_grid_witness :
    (1080 : Int) ∈ compute_free_slots_for_date oC7 420 0 60 :=
  (C7_empty_busy_grid oC7 420 0 60 (by decide) (by decide) 1080).mpr (by decide)

/-- Claim C8: the merge step is idempotent (it is a pure function of its
input, so it has no side effects and leaves its argument unchanged). -/
theorem C8_merge_idempotent (l : List Ivl) :
    mergeIntervals (mergeIntervals l) = mergeIntervals l :=
  mergeIntervals_idem l

/-- Counterexample to Claim C9 as stated: the day-search loop tests
`d <= anchor + 30` before incrementing `d`, so it examines (and can offer) day
`anchor + 31` — with every day busy except day 31, the keyboard for anchor 0
offers exactly day 31, which is outside a 30-day horizon. -/
theorem C9_counterexample :
    nearest_free_days_keyboard oC9 0 0 60 = [31] ∧ ¬((31 : Int) ≤ 0 + 30) := by
  decide

/-- Claim C9 (amended): the nearest-free-days offer lists at most 7 candidate
days, each strictly after the anchor, within 31 (not 30) days of it, and each
with a non-empty availability result. -/
theorem C9_nearest_days (o : Oracle) (now anchor minutes : Int) :
    (nearest_free_days_keyboard o now anchor minutes).length ≤ 7 ∧
    ∀ x ∈ nearest_free_days_keyboard o now anchor minutes,
      anchor < x ∧ x ≤ anchor + 31 ∧ compute_free_slots_for_date o now x minutes ≠ [] := by
  obtain ⟨hl, hm⟩ := nfdGo_spec o now minutes 31 anchor 0
  constructor
  · simpa [nearest_free_days_keyboard] using hl
  · intro x hx
    obtain ⟨ha, hb, hc⟩ := hm x hx
    refine ⟨ha, ?_, hc⟩
    have hcast : ((31 : Nat) : Int) = 31 := by norm_num
    omega

/-- Witness for the amended C9 at a concrete oracle. -/
theorem C9_nearest_days_witness :
    (nearest_free_days_keyboard oC9 0 0 60).length ≤ 7 :=
  (C9_nearest_days oC9 0 0 60).1

/-- Claim C10: when the oracle is unavailable for busy listing (unconfigured,
or the listing call fails so the busy set is treated as empty), the
reservation never returns a conflict, for any draft including
`allow_overlap = false` — the fail-open policy extends to the commit-time
re-check. -/
theorem C10_fail_open_no_conflict (o : Oracle) (startT durT : Int) (allow : Bool)
    (h : o.configured = false ∨ o.listFails = true) :
    ∀ evs, (create_event_on_calendar o startT durT allow).1 ≠ CreateResult.conflict evs := by
  intro evs
  cases hc : o.configured
  · rw [create_event_unconfigured_eq o startT durT allow hc]
    simp
  · have hl : o.listFails = true := by
      rcases h with h | h
      · rw [hc] at h; exact Bool.noConfusion h
      · exact h
    have hbusy : list_busy_intervals o (startT / 1440) =
        [] := list_busy_of_unreachable _ (Or.inr hl)
    cases allow
    · rw [create_event_noconflict_eq o startT durT hc (by rw [hbusy]; rfl)]
      by_cases hi : o.insertOk
      · rw [if_pos hi]; simp
      · rw [if_neg hi]; simp
    · rw [create_event_allow_eq o startT durT hc]
      by_cases hi : o.insertOk
      · rw [if_pos hi]; simp
      · rw [if_neg hi]; simp

/-- Witness for C10: an event that would conflict exists, but the listing
call fails, and the booking is not blocked as conflicting. -/
theorem C10_fail_open_no_conflict_witness :
    (create_event_on_calendar oC10 630 60 false).1 ≠ CreateResult.conflict [⟨585, 675⟩] :=
  C10_fail_open_no_conflict oC10 630 60 false (Or.inr rfl) [⟨585, 675⟩]
